import Mathlib

/-!
# Verification of the `environ` resolution pipeline (src/extension.ts)

Shallow embedding of the environment-resolution pipeline of the `environ`
VS Code extension.  JavaScript objects (`EnvMap = { [key: string]: string }`)
are embedded as association lists over `String` with JavaScript object
semantics: assignment `m[k] = v` replaces the value in place when the key is
present (preserving insertion order) and appends otherwise, and property
lookup returns the first (unique) binding.  `process.env` is threaded
explicitly as such a map.  Absolute normalized filesystem paths are embedded
as their component lists (`[]` is the root `/`), so Node's `path.dirname`
is `List.dropLast` and `path.join` is list append.  External collaborators
(the filesystem, `dotenv.parse` + `fs.readFileSync`, `dotenv-expand`) are
abstract function parameters, so theorems quantify over their behavior.
-/

/-- JavaScript-object embedding of `EnvMap = { [key: string]: string }`:
an association list whose keys are unique when built by `envSet`. -/
abbrev EnvMap := List (String × String)

/-- Generic association-list lookup: value of the first binding of `k`
(JavaScript property read; `none` embeds `undefined`). -/
def alistLookup {α : Type} (m : List (String × α)) (k : String) : Option α :=
  (m.find? (fun p => p.1 = k)).map (fun p => p.2)

/-- Generic association-list assignment with JavaScript object semantics:
`m[k] = v` updates the binding in place when present, else appends. -/
def alistSet {α : Type} (m : List (String × α)) (k : String) (v : α) :
    List (String × α) :=
  match m with
  | [] => [(k, v)]
  | a :: t => if a.1 = k then (k, v) :: t else a :: alistSet t k v

/-- Lookup: `envLookup m k` embeds the JavaScript property read `m[k]`. -/
def envLookup (m : EnvMap) (k : String) : Option String := alistLookup m k

/-- Assignment: `envSet m k v` embeds the JavaScript assignment `m[k] = v`. -/
def envSet (m : EnvMap) (k : String) (v : String) : EnvMap := alistSet m k v

/-- Deletion: `envDelete m k` embeds the JavaScript statement `delete m[k]`. -/
def envDelete (m : EnvMap) (k : String) : EnvMap :=
  m.filter (fun p => ¬ p.1 = k)

theorem alistLookup_nil {α : Type} (k : String) :
    alistLookup ([] : List (String × α)) k = none := rfl

theorem alistLookup_cons {α : Type} (a : String × α) (m : List (String × α))
    (k : String) :
    alistLookup (a :: m) k = if a.1 = k then some a.2 else alistLookup m k := by
  by_cases h : a.1 = k <;> simp [alistLookup, List.find?_cons, h]

theorem alistLookup_append {α : Type} (m₁ m₂ : List (String × α)) (k : String) :
    alistLookup (m₁ ++ m₂) k =
      ((alistLookup m₁ k).map some).getD (alistLookup m₂ k) := by
  induction m₁ with
  | nil => simp [alistLookup_nil]
  | cons a m ih =>
    by_cases h : a.1 = k <;> simp [alistLookup_cons, h, ih]

/-- Assignment then lookup of the same key yields the new value. -/
theorem alistLookup_set_self {α : Type} (m : List (String × α)) (k : String)
    (v : α) : alistLookup (alistSet m k v) k = some v := by
  induction m with
  | nil => simp [alistSet, alistLookup_cons]
  | cons a t ih =>
    by_cases h : a.1 = k
    · simp [alistSet, h, alistLookup_cons]
    · simp [alistSet, h, alistLookup_cons, ih]

/-- Assignment leaves lookups of other keys unchanged. -/
theorem alistLookup_set_other {α : Type} (m : List (String × α)) (k k' : String)
    (v : α) (hk : k' ≠ k) :
    alistLookup (alistSet m k v) k' = alistLookup m k' := by
  have hk' : ¬ k = k' := fun h => hk h.symm
  induction m with
  | nil => simp [alistSet, alistLookup_cons, alistLookup_nil, hk']
  | cons a t ih =>
    by_cases h : a.1 = k
    · have h2 : ¬ a.1 = k' := by rw [h]; exact hk'
      simp [alistSet, h, alistLookup_cons, hk', h2]
    · simp [alistSet, h, alistLookup_cons, ih]

theorem envLookup_nil (k : String) : envLookup [] k = none := rfl

theorem envLookup_cons (a : String × String) (m : EnvMap) (k : String) :
    envLookup (a :: m) k = if a.1 = k then some a.2 else envLookup m k :=
  alistLookup_cons a m k

theorem envLookup_set_self (m : EnvMap) (k : String) (v : String) :
    envLookup (envSet m k v) k = some v := alistLookup_set_self m k v

theorem envLookup_set_other (m : EnvMap) (k k' : String) (v : String)
    (hk : k' ≠ k) : envLookup (envSet m k v) k' = envLookup m k' :=
  alistLookup_set_other m k k' v hk

theorem envDelete_cons (a : String × String) (m : EnvMap) (k : String) :
    envDelete (a :: m) k =
      if a.1 = k then envDelete m k else a :: envDelete m k := by
  by_cases h : a.1 = k <;> simp [envDelete, List.filter_cons, h]

theorem envLookup_delete_self (m : EnvMap) (k : String) :
    envLookup (envDelete m k) k = none := by
  induction m with
  | nil => rfl
  | cons a t ih =>
    rw [envDelete_cons]
    by_cases h : a.1 = k
    · simpa [h] using ih
    · simpa [h, envLookup_cons] using ih

theorem envLookup_delete_other (m : EnvMap) (k k' : String) (hk : k' ≠ k) :
    envLookup (envDelete m k) k' = envLookup m k' := by
  induction m with
  | nil => rfl
  | cons a t ih =>
    rw [envDelete_cons]
    by_cases h : a.1 = k
    · have h2 : ¬ a.1 = k' := by rw [h]; exact fun hc => hk hc.symm
      rw [if_pos h, envLookup_cons, if_neg h2]
      exact ih
    · rw [if_neg h, envLookup_cons, envLookup_cons]
      by_cases h' : a.1 = k' <;> simp [h', ih]

/-!
## Filesystem paths and the directory chain

An absolute, normalized path is embedded as its list of components, root
first; `[]` is the filesystem root `/`.  On this representation Node's
`path.dirname` is `List.dropLast` (the dirname of the root is the root) and
`path.resolve` on an already-absolute normalized input is the identity, so
`path.resolve(startPath)` at the top of `getParentDirectories` is dropped.
-/

/-- Component-list embedding of an absolute normalized filesystem path. -/
abbrev FsPath := List String

/-- Node's `path.dirname` on absolute normalized paths: drop the last
component; the dirname of the root is the root itself. -/
def dirname (p : FsPath) : FsPath := p.dropLast

/-- Render a component path as the POSIX path string (`folder.uri.fsPath`,
`directories.join`). -/
def renderPath (p : FsPath) : String := "/" ++ String.intercalate "/" p

/-- Source `getParentDirectories` (src/extension.ts:64-78): push the current path,
step to its parent, and stop when the parent equals the current path.  On
the component embedding the loop condition `parent === current` holds
exactly at the root `[]`, which the `match` encodes directly. -/
def getParentDirectories (startPath : FsPath) : List FsPath :=
  match startPath with
  | [] => [[]]
  | c :: rest => (c :: rest) :: getParentDirectories (dirname (c :: rest))
termination_by startPath.length
decreasing_by simp [dirname]

theorem getParentDirectories_nil : getParentDirectories [] = [[]] := by
  rw [getParentDirectories]

theorem getParentDirectories_cons (c : String) (rest : List String) :
    getParentDirectories (c :: rest) =
      (c :: rest) :: getParentDirectories (dirname (c :: rest)) := by
  rw [getParentDirectories]

/-- The two candidate locations probed per directory, in the order the
source's inner `for` visits them (src/extension.ts:89-92):
`path.join(current, ".vscode", envFileName)` then
`path.join(current, envFileName)`. -/
def envCandidates (dir : FsPath) (envFileName : String) : List FsPath :=
  [dir ++ [".vscode", envFileName], dir ++ [envFileName]]

/-- Loop body and walk of `findEnvFilesUpwards` (src/extension.ts:80-105),
with the accumulated `envPaths` array threaded explicitly; `unshift` is list
`::`.  The filesystem is the abstract existence predicate `fsExists`
(`fs.existsSync`). -/
def findEnvFilesLoop (fsExists : FsPath → Bool) (envFileName : String) :
    FsPath → List FsPath → List FsPath
  | current, envPaths =>
    let acc := (envCandidates current envFileName).foldl
      (fun a candidate => if fsExists candidate then candidate :: a else a)
      envPaths
    match current with
    | [] => acc
    | c :: rest => findEnvFilesLoop fsExists envFileName (dirname (c :: rest)) acc
termination_by current => current.length
decreasing_by simp [dirname]

/-- Source `findEnvFilesUpwards` (src/extension.ts:80-105): walk from the start
folder to the root, probing both candidate files per directory and
`unshift`ing each hit.  `path.resolve(startFolderFsPath)` is the identity on
the absolute normalized embedding. -/
def findEnvFilesUpwards (fsExists : FsPath → Bool) (startFolderFsPath : FsPath)
    (envFileName : String) : List FsPath :=
  findEnvFilesLoop fsExists envFileName startFolderFsPath []

/-- The merging `for` loop of `parseEnvFiles` (src/extension.ts:108-120):
read and parse each file, skipping a file whose read or parse throws, and
fold its entries into `merged` with `merged[k] = v`.  `fs.readFileSync` +
`dotenv.parse` are the abstract `readParse`; `none` embeds a thrown
read/parse error (the `catch` branch, which only logs). -/
def parseEnvFilesMerged (readParse : FsPath → Option EnvMap)
    (paths : List FsPath) : EnvMap :=
  paths.foldl
    (fun merged p =>
      match readParse p with
      | some parsed => parsed.foldl (fun m kv => envSet m kv.1 kv.2) merged
      | none => merged)
    []

/-- The layered last-write-wins merge, i.e. the same entry fold applied to an
ordered sequence of already-parsed layer maps (what `parseEnvFilesMerged`
does to the maps of the files that parsed successfully). -/
def mergeEnvLayers (layers : List EnvMap) : EnvMap :=
  layers.foldl
    (fun merged parsed => parsed.foldl (fun m kv => envSet m kv.1 kv.2) merged)
    []

/-- Source `filterEnvByAllowed` (src/extension.ts:229-244): with no filter (absent
or empty `allowed`) return the input map itself; otherwise keep exactly the
allowed keys that are present in the input. -/
def filterEnvByAllowed (env : EnvMap) (allowed : Option (List String)) :
    EnvMap :=
  match allowed with
  | none => env
  | some l =>
    if l.length = 0 then env
    else
      l.foldl
        (fun out k =>
          match envLookup env k with
          | some v => envSet out k v
          | none => out)
        []

theorem alistLookup_eq_none_of_not_mem {α : Type} (m : List (String × α))
    (k : String) (h : k ∉ m.map Prod.fst) : alistLookup m k = none := by
  induction m with
  | nil => rfl
  | cons a t ih =>
    rw [alistLookup_cons]
    have h1 : ¬ a.1 = k := fun hc => h (by simp [hc])
    have h2 : k ∉ t.map Prod.fst := fun hc => h (by simp [hc])
    simp [h1, ih h2]

theorem mem_keys_of_alistLookup {α : Type} (m : List (String × α)) (k : String)
    (v : α) (h : alistLookup m k = some v) : k ∈ m.map Prod.fst := by
  by_contra hc
  rw [alistLookup_eq_none_of_not_mem m k hc] at h
  exact Option.noConfusion h

theorem alistLookup_isSome_of_mem {α : Type} (m : List (String × α))
    (k : String) (h : k ∈ m.map Prod.fst) : (alistLookup m k).isSome := by
  induction m with
  | nil => simp at h
  | cons a t ih =>
    rw [alistLookup_cons]
    rw [List.map_cons] at h
    by_cases h1 : a.1 = k
    · simp [h1]
    · have h2 : k ∈ t.map Prod.fst := by
        rcases List.mem_cons.mp h with h' | h'
        · exact absurd h'.symm h1
        · exact h'
      simp [h1, ih h2]

/-- Folding one layer's entries into an accumulator with `merged[k] = v`:
the layer's own binding wins, otherwise the accumulator's survives. -/
theorem envLookup_entryFold (m : EnvMap) (acc : EnvMap) (k : String)
    (hm : (m.map Prod.fst).Nodup) :
    envLookup (m.foldl (fun a kv => envSet a kv.1 kv.2) acc) k =
      (envLookup m k).or (envLookup acc k) := by
  induction m generalizing acc with
  | nil => simp [envLookup_nil, Option.none_or]
  | cons a t ih =>
    have hm' := hm
    rw [List.map_cons] at hm'
    have hpair := List.nodup_cons.mp hm'
    rw [List.foldl_cons, ih (envSet acc a.1 a.2) hpair.2, envLookup_cons]
    by_cases h : a.1 = k
    · subst h
      have ht : envLookup t a.1 = none :=
        alistLookup_eq_none_of_not_mem t a.1 hpair.1
      rw [ht, if_pos rfl, Option.none_or, envLookup_set_self]
      rfl
    · rw [if_neg h, envLookup_set_other acc a.1 k a.2 (fun hc => h hc.symm)]

/-- The accumulator-general form of the layered merge characterization. -/
theorem envLookup_layerFold (layers : List EnvMap) (acc : EnvMap) (k : String)
    (hwf : ∀ m ∈ layers, (m.map Prod.fst).Nodup) :
    envLookup
        (layers.foldl
          (fun merged parsed =>
            parsed.foldl (fun m kv => envSet m kv.1 kv.2) merged) acc) k =
      (layers.reverse.findSome? (fun m => envLookup m k)).or
        (envLookup acc k) := by
  induction layers generalizing acc with
  | nil => simp [Option.none_or]
  | cons m rest ih =>
    have hm : (m.map Prod.fst).Nodup := hwf m (by simp)
    have hrest : ∀ m' ∈ rest, (m'.map Prod.fst).Nodup :=
      fun m' hm' => hwf m' (by simp [hm'])
    rw [List.foldl_cons, ih _ hrest, envLookup_entryFold m acc k hm,
      List.reverse_cons, List.findSome?_append, Option.or_assoc]
    cases hmk : envLookup m k <;> simp [List.findSome?, hmk]

/-- Helper shared by several claims: the merging loop of `parseEnvFiles` is
exactly the layered merge of the maps of the files that parsed
successfully, in file order. -/
theorem parseEnvFilesMerged_eq_mergeEnvLayers (readParse : FsPath → Option EnvMap)
    (paths : List FsPath) :
    parseEnvFilesMerged readParse paths =
      mergeEnvLayers (paths.filterMap readParse) := by
  have aux : ∀ (ps : List FsPath) (acc : EnvMap),
      ps.foldl
        (fun merged p =>
          match readParse p with
          | some parsed => parsed.foldl (fun m kv => envSet m kv.1 kv.2) merged
          | none => merged) acc =
      (ps.filterMap readParse).foldl
        (fun merged parsed =>
          parsed.foldl (fun m kv => envSet m kv.1 kv.2) merged) acc := by
    intro ps
    induction ps with
    | nil => intro acc; rfl
    | cons p rest ih =>
      intro acc
      rcases hp : readParse p with _ | parsed
      · rw [List.foldl_cons, List.filterMap_cons_none hp]
        simpa [hp] using ih acc
      · rw [List.foldl_cons, List.filterMap_cons_some hp, List.foldl_cons]
        simpa [hp] using ih (parsed.foldl (fun m kv => envSet m kv.1 kv.2) acc)
  exact aux paths []

/-- C1: the layered merge performed by `parseEnvFiles` merges the parsed
layer maps root-to-leaf with last-write-wins: it equals the layered merge of
the successfully parsed layers, the merged value of a key is the value of
the layer latest in the sequence among those defining it, and in particular
for layers `L1` (root-ward) and `L2` (leaf-ward) both defining `K`, the
merged map's value at `K` equals `L2`'s value at `K`. -/
theorem parseEnvFiles_layeredMerge_lastWins :
    (∀ (readParse : FsPath → Option EnvMap) (paths : List FsPath),
      parseEnvFilesMerged readParse paths =
        mergeEnvLayers (paths.filterMap readParse)) ∧
    (∀ (layers : List EnvMap) (k : String),
      (∀ m ∈ layers, (m.map Prod.fst).Nodup) →
      envLookup (mergeEnvLayers layers) k =
        layers.reverse.findSome? (fun m => envLookup m k)) ∧
    (∀ (L1 L2 : EnvMap) (K v2 : String),
      (L1.map Prod.fst).Nodup → (L2.map Prod.fst).Nodup →
      envLookup L2 K = some v2 →
      envLookup (mergeEnvLayers [L1, L2]) K = some v2) := by
  have hchar : ∀ (layers : List EnvMap) (k : String),
      (∀ m ∈ layers, (m.map Prod.fst).Nodup) →
      envLookup (mergeEnvLayers layers) k =
        layers.reverse.findSome? (fun m => envLookup m k) := by
    intro layers k hwf
    have h := envLookup_layerFold layers [] k hwf
    rw [mergeEnvLayers]
    rw [h, envLookup_nil, Option.or_none]
  refine ⟨parseEnvFilesMerged_eq_mergeEnvLayers, hchar, ?_⟩
  intro L1 L2 K v2 h1 h2 hv
  have hwf : ∀ m ∈ [L1, L2], (m.map Prod.fst).Nodup := by
    intro m hm
    rcases List.mem_cons.mp hm with h | h
    · exact h ▸ h1
    · rcases List.mem_cons.mp h with h' | h'
      · exact h' ▸ h2
      · simp at h'
  rw [hchar [L1, L2] K hwf]
  simp [List.findSome?, hv]

/-- Witness for C1: two concrete layers both defining `K`; the leaf-ward
layer's value `"2"` wins in the merge. -/
theorem parseEnvFiles_layeredMerge_lastWins_witness :
    envLookup (mergeEnvLayers [[("K", "1"), ("A", "a")], [("K", "2")]]) "K" =
      some "2" :=
  parseEnvFiles_layeredMerge_lastWins.2.2 [("K", "1"), ("A", "a")] [("K", "2")]
    "K" "2" (by decide) (by decide) (by decide)

/-- C5: evaluating `getParentDirectories` at the concrete directory `/a/b`.
The source pushes the current path *before* stepping to the parent, so the
returned chain is `["/a/b", "/a", "/"]` — leaf first, root last — while the
function's own doc comment (src/extension.ts:61-62) and the claim say it is
ordered from the root to the given path. -/
theorem getParentDirectories_eval_ab :
    getParentDirectories ["a", "b"] = [["a", "b"], ["a"], []] ∧
    [["a", "b"], ["a"], []] ≠ [[], ["a"], ["a", "b"]] := by
  constructor
  · rw [getParentDirectories_cons]
    show ["a", "b"] :: getParentDirectories ["a"] = [["a", "b"], ["a"], []]
    rw [getParentDirectories_cons]
    show ["a", "b"] :: ["a"] :: getParentDirectories [] = [["a", "b"], ["a"], []]
    rw [getParentDirectories_nil]
  · decide

/-- C6 counterexample: with a filesystem on which every candidate exists,
querying the root directory returns the plain variant `/.env` *before* the
ide-subdirectory variant `/.vscode/.env`, because the inner loop `unshift`s
the `.vscode` candidate first and the plain candidate afterwards; the claim
says the `.vscode` variant is listed first within a directory. -/
theorem findEnvFilesUpwards_counterexample :
    findEnvFilesUpwards (fun _ => true) [] ".env" =
      [[".env"], [".vscode", ".env"]] ∧
    [[".env"], [".vscode", ".env"]] ≠ [[".vscode", ".env"], [".env"]] := by
  constructor
  · rw [findEnvFilesUpwards, findEnvFilesLoop]
    rfl
  · decide

theorem findEnvFilesLoop_nil (fsExists : FsPath → Bool) (envFileName : String)
    (acc : List FsPath) :
    findEnvFilesLoop fsExists envFileName [] acc =
      (envCandidates [] envFileName).foldl
        (fun a candidate => if fsExists candidate then candidate :: a else a)
        acc := by
  rw [findEnvFilesLoop]

theorem findEnvFilesLoop_cons (fsExists : FsPath → Bool) (envFileName : String)
    (c : String) (rest : List String) (acc : List FsPath) :
    findEnvFilesLoop fsExists envFileName (c :: rest) acc =
      findEnvFilesLoop fsExists envFileName (dirname (c :: rest))
        ((envCandidates (c :: rest) envFileName).foldl
          (fun a candidate => if fsExists candidate then candidate :: a else a)
          acc) := by
  rw [findEnvFilesLoop]

/-- Folding the two candidates of one directory with the `unshift`-if-exists
loop body prepends the present candidates in reversed candidate order. -/
theorem envCandidates_fold (fsExists : FsPath → Bool) (dir : FsPath)
    (envFileName : String) (acc : List FsPath) :
    (envCandidates dir envFileName).foldl
        (fun a candidate => if fsExists candidate then candidate :: a else a)
        acc =
      (([dir ++ [envFileName], dir ++ [".vscode", envFileName]]).filter
        fsExists) ++ acc := by
  by_cases hv : fsExists (dir ++ [".vscode", envFileName]) <;>
    by_cases hp : fsExists (dir ++ [envFileName]) <;>
      simp [envCandidates, List.filter_cons, hv, hp]

/-- Accumulator-general characterization of the discovery walk. -/
theorem findEnvFilesLoop_spec (fsExists : FsPath → Bool) (envFileName : String) :
    ∀ (n : Nat) (current : FsPath), current.length ≤ n →
      ∀ (acc : List FsPath),
      findEnvFilesLoop fsExists envFileName current acc =
        ((getParentDirectories current).reverse.flatMap
          (fun dir =>
            ([dir ++ [envFileName], dir ++ [".vscode", envFileName]]).filter
              fsExists)) ++ acc := by
  intro n
  induction n with
  | zero =>
    intro current hc acc
    have h0 : current = [] := List.eq_nil_of_length_eq_zero
      (Nat.le_antisymm hc (Nat.zero_le _))
    subst h0
    rw [findEnvFilesLoop_nil, envCandidates_fold, getParentDirectories_nil]
    simp
  | succ n ih =>
    intro current hc acc
    cases current with
    | nil =>
      rw [findEnvFilesLoop_nil, envCandidates_fold, getParentDirectories_nil]
      simp
    | cons c rest =>
      rw [findEnvFilesLoop_cons, envCandidates_fold]
      have hlen : (dirname (c :: rest)).length ≤ n := by
        have := List.length_dropLast (c :: rest)
        simp only [dirname, this]
        simpa using Nat.le_of_succ_le_succ hc
      rw [ih (dirname (c :: rest)) hlen]
      rw [getParentDirectories_cons, List.reverse_cons, List.flatMap_append]
      simp [List.append_assoc]

/-- C6 amended: `findEnvFilesUpwards` returns the discovered files in
root-to-leaf order across directories (the reversed parent chain), but
within a single directory the plain variant `<dir>/<fileName>` is listed
*before* the ide-subdirectory variant `<dir>/.vscode/<fileName>`. -/
theorem findEnvFilesUpwards_ordering (fsExists : FsPath → Bool)
    (startFolderFsPath : FsPath) (envFileName : String) :
    findEnvFilesUpwards fsExists startFolderFsPath envFileName =
      (getParentDirectories startFolderFsPath).reverse.flatMap
        (fun dir =>
          ([dir ++ [envFileName], dir ++ [".vscode", envFileName]]).filter
            fsExists) := by
  rw [findEnvFilesUpwards,
    findEnvFilesLoop_spec fsExists envFileName startFolderFsPath.length
      startFolderFsPath (Nat.le_refl _) []]
  simp

/-!
## Ambient reconciliation (`updateEnvironmentVariableCollection`)

`context.environmentVariableCollection` is VS Code API, outside this
repository.  Modelled from the spec: the ambient environment store is a
per-key string value with a snapshot accessor/mutator interface — `get`
returns the current managed value for a key, `replace` sets it to the
argument, `prepend` sets it to `argument ++ current`, and `append` sets it
to `current ++ argument` (§4.7/§6 of the spec).  The store is an
association list `Collection`; an absent key reads as `undefined`, which the
source defaults to `""` via `?.value ?? ""`.
-/

/-- Per-key managed ambient store (spec's ambient-environment snapshot
accessor/mutator). -/
abbrev Collection := List (String × String)

/-- Modelled from the spec: `environmentVariableCollection.get(key)?.value`. -/
def collGet (c : Collection) (k : String) : Option String := alistLookup c k

/-- Modelled from the spec: `environmentVariableCollection.replace`. -/
def collReplace (c : Collection) (k v : String) : Collection := alistSet c k v

/-- Modelled from the spec: `environmentVariableCollection.prepend` — the
managed value becomes the argument followed by the current value. -/
def collPrepend (c : Collection) (k v : String) : Collection :=
  alistSet c k (v ++ (collGet c k).getD "")

/-- Modelled from the spec: `environmentVariableCollection.append` — the
managed value becomes the current value followed by the argument. -/
def collAppend (c : Collection) (k v : String) : Collection :=
  alistSet c k ((collGet c k).getD "" ++ v)

/-- Source `const pathSeparator = process.platform === "win32" ? ";" : ":"`
(src/extension.ts:16), with the platform as an explicit flag. -/
def pathSeparator (isWin32 : Bool) : String := if isWin32 then ";" else ":"

/-- Source `type MergeStrategy = "replace" | "prepend" | "append"`
(src/extension.ts:9). -/
inductive MergeStrategy where
  | replace
  | prepend
  | append
deriving DecidableEq

/-- Source `type MergeStrategies = { [variableName: string]: MergeStrategy }`
(src/extension.ts:10). -/
abbrev MergeStrategies := List (String × MergeStrategy)

/-- Source `DEFAULT_MERGE_STRATEGIES = { PATH: "prepend" }` (src/extension.ts:13). -/
def DEFAULT_MERGE_STRATEGIES : MergeStrategies := [("PATH", .prepend)]

/-- Source `config.get<boolean>("prependCwdComponentsToPath", true)`
(src/extension.ts:312-315): the configured value, defaulting to `true`
when the setting is absent. -/
def getPrependPaths (configured : Option Bool) : Bool := configured.getD true

/-- Body of the merge-strategy `for` loop of
`updateEnvironmentVariableCollection` (src/extension.ts:327-353) for one
`[key, value]` entry of `filtered`: pick the strategy (default `replace`),
read the current managed value (default `""`), mutate the collection, and
record the resulting managed value in `ensured`.  JavaScript
`currentValue && pathSeparator` is `""` when `currentValue` is empty and
`pathSeparator` otherwise.  (`process.env[key] = ensured[key]` and the
`console.log` are omitted: no claim concerns them.) -/
def updateEVCStep (isWin32 : Bool) (mergeStrategies : MergeStrategies)
    (st : EnvMap × Collection) (kv : String × String) : EnvMap × Collection :=
  let strategy := (alistLookup mergeStrategies kv.1).getD .replace
  let currentValue := (collGet st.2 kv.1).getD ""
  let sep := if currentValue = "" then "" else pathSeparator isWin32
  let coll :=
    match strategy with
    | .prepend => collPrepend st.2 kv.1 (kv.2 ++ sep)
    | .append => collAppend st.2 kv.1 (sep ++ kv.2)
    | .replace => collReplace st.2 kv.1 kv.2
  let ensured :=
    match collGet coll kv.1 with
    | some v => envSet st.1 kv.1 v
    | none => st.1
  (ensured, coll)

/-- Source `updateEnvironmentVariableCollection` (src/extension.ts:300-404), for a
present workspace folder, given the already-resolved `filtered` map: early
return `{}` when `filtered` is empty; otherwise apply the per-key merge
strategies, then, when `prependCwdComponentsToPath` is set, prepend the
whole parent-directory chain of the workspace folder (joined with the path
separator, plus a trailing separator) to `PATH`.  Returns `ensured` and the
mutated collection.  (Dynamic command registration, logging and
`process.env` mirroring are omitted: no claim concerns them.) -/
def updateEnvironmentVariableCollection (isWin32 : Bool) (prependPaths : Bool)
    (mergeStrategies : MergeStrategies) (filtered : EnvMap)
    (workspacePath : FsPath) (coll : Collection) : EnvMap × Collection :=
  if filtered.length = 0 then ([], coll)
  else
    let st := filtered.foldl (updateEVCStep isWin32 mergeStrategies) ([], coll)
    if prependPaths then
      let directories := getParentDirectories workspacePath
      let prependString :=
        String.intercalate (pathSeparator isWin32)
          (directories.map renderPath) ++ pathSeparator isWin32
      let coll2 := collPrepend st.2 "PATH" prependString
      let ensured2 :=
        match collGet coll2 "PATH" with
        | some v => envSet st.1 "PATH" v
        | none => st.1
      (ensured2, coll2)
    else st

/-- C2: for a key of the filtered map, reconciliation with strategy
`prepend` makes the managed ambient value
`configuredValue ++ separator ++ currentValue` and with `append` makes it
`currentValue ++ separator ++ configuredValue`, where the separator is `";"`
on Windows and `":"` elsewhere and is omitted entirely when the current
ambient value is empty. -/
theorem updateEVC_strategy_separator (isWin32 : Bool)
    (mergeStrategies : MergeStrategies) (ensured : EnvMap) (coll : Collection)
    (k v cur : String) (hcur : cur = (collGet coll k).getD "") :
    ((alistLookup mergeStrategies k).getD .replace = .prepend →
      collGet (updateEVCStep isWin32 mergeStrategies (ensured, coll) (k, v)).2 k
        = some (v ++ (if cur = "" then "" else pathSeparator isWin32) ++ cur)) ∧
    ((alistLookup mergeStrategies k).getD .replace = .append →
      collGet (updateEVCStep isWin32 mergeStrategies (ensured, coll) (k, v)).2 k
        = some (cur ++ ((if cur = "" then "" else pathSeparator isWin32) ++ v))) ∧
    pathSeparator true = ";" ∧ pathSeparator false = ":" := by
  subst hcur
  refine ⟨?_, ?_, rfl, rfl⟩ <;> intro hs <;>
    simp [updateEVCStep, hs, collPrepend, collAppend, collGet,
      alistLookup_set_self]

/-- Witness for C2: prepending configured value `/new/bin` over an empty
current value yields exactly `/new/bin`; over current value `/old/bin` it
yields `/new/bin:/old/bin` with the POSIX separator. -/
theorem updateEVC_strategy_separator_witness :
    collGet (updateEVCStep false [("PATH", MergeStrategy.prepend)] ([], [])
        ("PATH", "/new/bin")).2 "PATH" = some "/new/bin" ∧
    collGet (updateEVCStep false [("PATH", MergeStrategy.prepend)]
        ([], [("PATH", "/old/bin")]) ("PATH", "/new/bin")).2 "PATH" =
      some "/new/bin:/old/bin" := by
  constructor
  · have h := (updateEVC_strategy_separator false [("PATH", .prepend)] [] []
      "PATH" "/new/bin" "" rfl).1 rfl
    rw [h]
    decide
  · have h := (updateEVC_strategy_separator false [("PATH", .prepend)] []
      [("PATH", "/old/bin")] "PATH" "/new/bin" "/old/bin" (by decide)).1 rfl
    rw [h]
    decide

/-- C3: evaluating reconciliation twice in succession with identical inputs
(key `K`, configured value `"v"`, strategy `prepend`, POSIX separator,
inert PATH block, nothing changing in between).  The first call makes the
managed value `"v"`; the second call reads that value back as the current
value and prepends the configured content again, growing it to `"v:v"`
instead of leaving it at `"v"`. -/
theorem updateEVC_second_call_grows :
    collGet ((updateEnvironmentVariableCollection false false
        [("K", MergeStrategy.prepend)] [("K", "v")] [] []).2) "K" =
      some "v" ∧
    collGet ((updateEnvironmentVariableCollection false false
        [("K", MergeStrategy.prepend)] [("K", "v")] []
        ((updateEnvironmentVariableCollection false false
          [("K", MergeStrategy.prepend)] [("K", "v")] [] []).2)).2) "K" =
      some "v:v" := by
  constructor <;> decide

/-- The merge-strategy loop leaves the managed value of any key outside the
filtered map untouched. -/
theorem updateEVCFold_other (isWin32 : Bool) (ms : MergeStrategies)
    (filtered : EnvMap) (k : String) :
    ∀ st : EnvMap × Collection, k ∉ filtered.map Prod.fst →
      collGet (filtered.foldl (updateEVCStep isWin32 ms) st).2 k =
        collGet st.2 k := by
  induction filtered with
  | nil => intro st _; rfl
  | cons kv rest ih =>
    intro st h
    rw [List.map_cons] at h
    have h1 : ¬ kv.1 = k := fun hc => h (by simp [hc])
    have h2 : k ∉ rest.map Prod.fst := fun hc => h (by simp [hc])
    rw [List.foldl_cons, ih _ h2]
    have hk : k ≠ kv.1 := fun hc => h1 hc.symm
    cases hstrat : (alistLookup ms kv.1).getD .replace <;>
      simp [updateEVCStep, hstrat, collPrepend, collAppend, collReplace,
        collGet, alistLookup_set_other _ _ _ _ hk]

/-- C10: whenever `prependCwdComponentsToPath` is enabled (its configured
value, defaulting to `true`) and the resolved filtered map is non-empty,
reconciliation prepends to the ambient `PATH` value the entire parent
directory chain of the workspace folder joined by the platform separator
and followed by one trailing separator — even when `PATH` occurs in no
filtered entry (and regardless of the merge-strategy configuration). -/
theorem updateEVC_prependsCwdChain (isWin32 : Bool) (cfg : Option Bool)
    (ms : MergeStrategies) (filtered : EnvMap) (ws : FsPath)
    (coll : Collection) (hcfg : getPrependPaths cfg = true)
    (hne : ¬ filtered.length = 0) (hPATH : "PATH" ∉ filtered.map Prod.fst) :
    collGet (updateEnvironmentVariableCollection isWin32 (getPrependPaths cfg)
        ms filtered ws coll).2 "PATH" =
      some (String.intercalate (pathSeparator isWin32)
          ((getParentDirectories ws).map renderPath) ++ pathSeparator isWin32
          ++ (collGet coll "PATH").getD "") := by
  rw [hcfg]
  unfold updateEnvironmentVariableCollection
  rw [if_neg hne, if_pos rfl]
  simp only [collPrepend, collGet, alistLookup_set_self]
  have h2 := updateEVCFold_other isWin32 ms filtered "PATH" ([], coll) hPATH
  simp only [collGet] at h2
  rw [h2]

/-- Witness for C10: with the default (absent) setting, default merge
strategies, a non-empty filtered map not containing `PATH`, workspace
folder `/u` and an empty collection, the managed `PATH` value becomes
`/u:/:` — the chain `["/u", "/"]` joined by `:` plus a trailing `:`. -/
theorem updateEVC_prependsCwdChain_witness :
    collGet (updateEnvironmentVariableCollection false (getPrependPaths none)
        DEFAULT_MERGE_STRATEGIES [("X", "1")] ["u"] []).2 "PATH" =
      some "/u:/:" := by
  have h := updateEVC_prependsCwdChain false none DEFAULT_MERGE_STRATEGIES
    [("X", "1")] ["u"] [] rfl (by decide) (by decide)
  rw [h]
  have hc : getParentDirectories ["u"] = [["u"], []] := by
    rw [getParentDirectories_cons]
    show ["u"] :: getParentDirectories [] = [["u"], []]
    rw [getParentDirectories_nil]
  rw [hc]
  decide

/-!
## Variable expansion (`expandVariables`, src/extension.ts:20-58)

`process.env` is threaded explicitly.  `dotenvExpand.expand({ parsed })` is
the abstract `expander`, receiving the parsed map and the current ambient
environment; its result is `(none, env)` when the call throws (the thrown
exception propagates, there is no `try`/`finally` around the call) and
`(some r, env)` when it returns, where `r` is `expansion.parsed`
(`none` embeds `undefined`) and `env` the ambient environment it left
behind.  `touchedKeys`/`originalValues` become an insertion-ordered key
list plus an association list of remembered `Option` values; a remembered
`none` embeds `process.env[key] === undefined`, and on restore it deletes
the key exactly as `previous === undefined` does in the source.
-/

/-- Record type of `originalValues : Map<string, string | undefined>`. -/
abbrev Originals := List (String × Option String)

/-- Abstraction of `dotenvExpand.expand` as an abstract function of the parsed map and the
ambient environment. -/
abbrev Expander := EnvMap → EnvMap → Option (Option EnvMap) × EnvMap

/-- Result of `expandVariables`: normal return with the expanded map and
the ambient environment left behind, or a propagated exception with the
ambient environment at the throw point. -/
inductive ExpandResult where
  | ok (expanded : EnvMap) (procEnv : EnvMap)
  | exn (procEnv : EnvMap)
deriving DecidableEq

/-- Source `rememberOriginal` (src/extension.ts:29-34): record the current ambient
value of `key` the first time it is touched. -/
def rememberOriginal (touched : List String) (originals : Originals)
    (procEnv : EnvMap) (k : String) : List String × Originals :=
  if k ∈ touched then (touched, originals)
  else (touched ++ [k], originals ++ [(k, envLookup procEnv k)])

/-- The first loop of `expandVariables` (src/extension.ts:36-39): for each
`baseEnv` entry, remember the original ambient value, then overwrite it. -/
def applyBaseEnv : EnvMap → (List String × Originals) → EnvMap →
    (List String × Originals) × EnvMap
  | [], st, env => (st, env)
  | kv :: rest, st, env =>
    applyBaseEnv rest (rememberOriginal st.1 st.2 env kv.1)
      (envSet env kv.1 kv.2)

/-- The second loop of `expandVariables` (src/extension.ts:41-43): remember
the original ambient values of the parsed keys (no writes). -/
def rememberKeys : List String → (List String × Originals) → EnvMap →
    List String × Originals
  | [], st, _ => st
  | k :: rest, st, env => rememberKeys rest (rememberOriginal st.1 st.2 env k) env

/-- One iteration of the restore loop (src/extension.ts:48-55): a remembered
`undefined` deletes the ambient key, a remembered string writes it back. -/
def restoreOne (originals : Originals) (env : EnvMap) (k : String) : EnvMap :=
  match (alistLookup originals k).getD none with
  | some prev => envSet env k prev
  | none => envDelete env k

/-- The restore loop over the touched keys. -/
def restoreAll : List String → Originals → EnvMap → EnvMap
  | [], _, env => env
  | k :: rest, o, env => restoreAll rest o (restoreOne o env k)

/-- Source `expandVariables` (src/extension.ts:20-58): empty target short-circuits
to `{}`; otherwise push `baseEnv` into the ambient environment (remembering
originals), register the parsed keys, run the expansion, and restore the
touched keys — but only on the normal-return path, since the source has no
`try`/`finally`: a throwing expansion propagates with the ambient
environment as the expander left it. -/
def expandVariables (expander : Expander) (map baseEnv procEnv : EnvMap) :
    ExpandResult :=
  if map.length = 0 then .ok [] procEnv
  else
    let p1 := applyBaseEnv baseEnv ([], []) procEnv
    let st2 := rememberKeys (map.map Prod.fst) p1.1 p1.2
    match expander map p1.2 with
    | (none, envAfter) => .exn envAfter
    | (some r, envAfter) => .ok (r.getD []) (restoreAll st2.1 st2.2 envAfter)

/-- The save/restore invariant of `expandVariables` relative to the ambient
environment `ref` it was entered with: the recorded originals cover exactly
the touched keys, each records the entry value under `ref`, and untouched
keys still read as in `ref`. -/
def EnvInv (ref : EnvMap) (touched : List String) (originals : Originals)
    (env : EnvMap) : Prop :=
  originals.map Prod.fst = touched ∧ touched.Nodup ∧
  (∀ k, k ∈ touched → alistLookup originals k = some (envLookup ref k)) ∧
  (∀ k, k ∉ touched → envLookup env k = envLookup ref k)

theorem EnvInv_init (ref : EnvMap) : EnvInv ref [] [] ref :=
  ⟨rfl, List.nodup_nil, fun k hk => absurd hk (List.not_mem_nil k),
    fun _ _ => rfl⟩

theorem rememberOriginal_spec (ref : EnvMap) (t : List String) (o : Originals)
    (env : EnvMap) (k : String) (h : EnvInv ref t o env) :
    EnvInv ref (rememberOriginal t o env k).1 (rememberOriginal t o env k).2
      env ∧
    (∀ j, j ∈ t → j ∈ (rememberOriginal t o env k).1) ∧
    k ∈ (rememberOriginal t o env k).1 := by
  obtain ⟨hkeys, hnd, hrec, hframe⟩ := h
  unfold rememberOriginal
  by_cases hk : k ∈ t
  · rw [if_pos hk]
    exact ⟨⟨hkeys, hnd, hrec, hframe⟩, fun j hj => hj, hk⟩
  · rw [if_neg hk]
    refine ⟨⟨?_, ?_, ?_, ?_⟩, ?_, ?_⟩
    · simp [hkeys]
    · simpa [List.nodup_append] using ⟨hnd, hk⟩
    · intro j hj
      rcases List.mem_append.mp hj with hj | hj
      · rw [alistLookup_append, hrec j hj]
        rfl
      · have hj' : j = k := by simpa using hj
        subst hj'
        have hnone : alistLookup o j = none := by
          apply alistLookup_eq_none_of_not_mem
          rw [hkeys]
          exact hk
        rw [alistLookup_append, hnone]
        simp [alistLookup_cons, hframe j hk]
    · intro j hj
      exact hframe j (fun hc => hj (List.mem_append.mpr (Or.inl hc)))
    · intro j hj
      exact List.mem_append.mpr (Or.inl hj)
    · simp

/-- Writing a key that was already remembered keeps the invariant. -/
theorem EnvInv_set (ref env : EnvMap) (t : List String) (o : Originals)
    (k v : String) (h : EnvInv ref t o env) (hk : k ∈ t) :
    EnvInv ref t o (envSet env k v) := by
  obtain ⟨hkeys, hnd, hrec, hframe⟩ := h
  refine ⟨hkeys, hnd, hrec, ?_⟩
  intro j hj
  have hjk : j ≠ k := fun hc => hj (hc ▸ hk)
  rw [envLookup_set_other env k j v hjk]
  exact hframe j hj

theorem applyBaseEnv_spec (ref : EnvMap) :
    ∀ (baseEnv : EnvMap) (t : List String) (o : Originals) (env : EnvMap),
      EnvInv ref t o env →
      EnvInv ref (applyBaseEnv baseEnv (t, o) env).1.1
          (applyBaseEnv baseEnv (t, o) env).1.2
          (applyBaseEnv baseEnv (t, o) env).2 ∧
      (∀ j, j ∈ t → j ∈ (applyBaseEnv baseEnv (t, o) env).1.1) ∧
      (∀ kv, kv ∈ baseEnv → kv.1 ∈ (applyBaseEnv baseEnv (t, o) env).1.1) := by
  intro baseEnv
  induction baseEnv with
  | nil =>
    intro t o env h
    exact ⟨h, fun j hj => hj, fun kv hkv => absurd hkv (List.not_mem_nil kv)⟩
  | cons kv rest ih =>
    intro t o env h
    have hro := rememberOriginal_spec ref t o env kv.1 h
    have hset := EnvInv_set ref env (rememberOriginal t o env kv.1).1
      (rememberOriginal t o env kv.1).2 kv.1 kv.2 hro.1 hro.2.2
    have hrec := ih (rememberOriginal t o env kv.1).1
      (rememberOriginal t o env kv.1).2 (envSet env kv.1 kv.2) hset
    rw [applyBaseEnv]
    refine ⟨hrec.1, ?_, ?_⟩
    · intro j hj
      exact hrec.2.1 j (hro.2.1 j hj)
    · intro kv' hkv'
      rcases List.mem_cons.mp hkv' with h' | h'
      · subst h'
        exact hrec.2.1 kv'.1 hro.2.2
      · exact hrec.2.2 kv' h'

theorem rememberKeys_spec (ref : EnvMap) :
    ∀ (ks : List String) (t : List String) (o : Originals) (env : EnvMap),
      EnvInv ref t o env →
      EnvInv ref (rememberKeys ks (t, o) env).1 (rememberKeys ks (t, o) env).2
        env ∧
      (∀ j, j ∈ t → j ∈ (rememberKeys ks (t, o) env).1) ∧
      (∀ j, j ∈ ks → j ∈ (rememberKeys ks (t, o) env).1) := by
  intro ks
  induction ks with
  | nil =>
    intro t o env h
    exact ⟨h, fun j hj => hj, fun j hj => absurd hj (List.not_mem_nil j)⟩
  | cons k rest ih =>
    intro t o env h
    have hro := rememberOriginal_spec ref t o env k h
    have hrec := ih (rememberOriginal t o env k).1 (rememberOriginal t o env k).2
      env hro.1
    rw [rememberKeys]
    refine ⟨hrec.1, ?_, ?_⟩
    · intro j hj
      exact hrec.2.1 j (hro.2.1 j hj)
    · intro j hj
      rcases List.mem_cons.mp hj with h' | h'
      · subst h'
        exact hrec.2.1 j hro.2.2
      · exact hrec.2.2 j h'

theorem restoreAll_spec (ref : EnvMap) :
    ∀ (t : List String) (o : Originals) (env : EnvMap),
      t.Nodup →
      (∀ k, k ∈ t → alistLookup o k = some (envLookup ref k)) →
      (∀ k, k ∈ t → envLookup (restoreAll t o env) k = envLookup ref k) ∧
      (∀ k, k ∉ t → envLookup (restoreAll t o env) k = envLookup env k) := by
  intro t
  induction t with
  | nil =>
    intro o env _ _
    exact ⟨fun k hk => absurd hk (List.not_mem_nil k), fun _ _ => rfl⟩
  | cons a rest ih =>
    intro o env hnd hrec
    have hnd' := List.nodup_cons.mp hnd
    have hrec' : ∀ k, k ∈ rest → alistLookup o k = some (envLookup ref k) :=
      fun k hk => hrec k (List.mem_cons.mpr (Or.inr hk))
    have hstep := ih o (restoreOne o env a) hnd'.2 hrec'
    rw [restoreAll]
    constructor
    · intro k hk
      rcases List.mem_cons.mp hk with h' | h'
      · subst h'
        rw [hstep.2 k hnd'.1]
        unfold restoreOne
        rw [hrec k (List.mem_cons.mpr (Or.inl rfl))]
        rcases hv : envLookup ref k with _ | prev
        · simp only [hv, Option.getD_some]
          exact envLookup_delete_self env k
        · simp only [hv, Option.getD_some]
          exact envLookup_set_self env k prev
      · exact hstep.1 k h'
    · intro k hk
      have hka : k ≠ a := fun hc => hk (List.mem_cons.mpr (Or.inl hc))
      have hkr : k ∉ rest := fun hc => hk (List.mem_cons.mpr (Or.inr hc))
      rw [hstep.2 k hkr]
      unfold restoreOne
      rcases (alistLookup o a).getD none with _ | prev
      · exact envLookup_delete_other env a k hka
      · exact envLookup_set_other env a k prev hka

/-- C4 amended: on the normal-return path, `expandVariables` restores every
ambient entry it touched (every key of the target map or of the base map)
to its exact prior value — keys that were previously absent are absent
again.  (The exception path does not restore; see the counterexample.) -/
theorem expandVariables_restores_on_success (expander : Expander)
    (map baseEnv procEnv expanded env' : EnvMap)
    (hok : expandVariables expander map baseEnv procEnv = .ok expanded env')
    (k : String) (hk : k ∈ map.map Prod.fst ∨ k ∈ baseEnv.map Prod.fst) :
    envLookup env' k = envLookup procEnv k := by
  unfold expandVariables at hok
  by_cases hemp : map.length = 0
  · rw [if_pos hemp] at hok
    injection hok with h1 h2
    subst h2
    rfl
  · rw [if_neg hemp] at hok
    rcases hexp : expander map (applyBaseEnv baseEnv ([], []) procEnv).2
      with ⟨r, envAfter⟩
    rcases r with _ | r
    · simp only [hexp] at hok
      exact absurd hok (by simp)
    · simp only [hexp] at hok
      injection hok with h1 h2
      subst h2
      have hB := applyBaseEnv_spec procEnv baseEnv [] [] procEnv
        (EnvInv_init procEnv)
      have hK := rememberKeys_spec procEnv (map.map Prod.fst)
        (applyBaseEnv baseEnv ([], []) procEnv).1.1
        (applyBaseEnv baseEnv ([], []) procEnv).1.2
        (applyBaseEnv baseEnv ([], []) procEnv).2 hB.1
      obtain ⟨hkeys, hnd, hrec, hframe⟩ := hK.1
      have hR := restoreAll_spec procEnv
        (rememberKeys (map.map Prod.fst)
          (applyBaseEnv baseEnv ([], []) procEnv).1
          (applyBaseEnv baseEnv ([], []) procEnv).2).1
        (rememberKeys (map.map Prod.fst)
          (applyBaseEnv baseEnv ([], []) procEnv).1
          (applyBaseEnv baseEnv ([], []) procEnv).2).2
        envAfter hnd hrec
      apply hR.1
      rcases hk with hk | hk
      · exact hK.2.2 k hk
      · obtain ⟨kv, hkv, hkveq⟩ := List.mem_map.mp hk
        exact hK.2.1 k (hkveq ▸ hB.2.2 kv hkv)

/-- C4 counterexample: a throwing expansion propagates without restoring.
With base map `{K: "new"}` over an ambient environment `{K: "old"}`, the
ambient value of `K` that the call overwrote is still `"new"` when the
exception leaves `expandVariables`, not its prior value `"old"`. -/
theorem expandVariables_exception_not_restored :
    expandVariables (fun _ e => (none, e)) [("A", "x")] [("K", "new")]
        [("K", "old")] = .exn [("K", "new")] ∧
    envLookup [("K", "new")] "K" ≠ envLookup [("K", "old")] "K" := by
  constructor
  · decide
  · decide

/-- Witness for the amended C4: a successful expansion that also writes an
unrelated ambient key `W`; the touched key `K` is restored exactly to its
prior value. -/
theorem expandVariables_restores_on_success_witness :
    expandVariables (fun p e => (some (some p), envSet e "W" "w"))
        [("A", "x")] [("K", "new")] [("K", "old")] =
      .ok [("A", "x")] [("K", "old"), ("W", "w")] ∧
    envLookup [("K", "old"), ("W", "w")] "K" = envLookup [("K", "old")] "K" := by
  have h1 : expandVariables (fun p e => (some (some p), envSet e "W" "w"))
      [("A", "x")] [("K", "new")] [("K", "old")] =
      .ok [("A", "x")] [("K", "old"), ("W", "w")] := by decide
  exact ⟨h1, expandVariables_restores_on_success
    (fun p e => (some (some p), envSet e "W" "w")) [("A", "x")] [("K", "new")]
    [("K", "old")] [("A", "x")] [("K", "old"), ("W", "w")] h1 "K"
    (Or.inr (by decide))⟩

/-- Source `parseEnvFiles` (src/extension.ts:107-122) in full: the merging loop
over the files followed by `expandVariables(merged, expansionBase)`. -/
def parseEnvFiles (readParse : FsPath → Option EnvMap) (expander : Expander)
    (paths : List FsPath) (expansionBase : EnvMap) (procEnv : EnvMap) :
    ExpandResult :=
  expandVariables expander (parseEnvFilesMerged readParse paths) expansionBase
    procEnv

/-- C8: a file whose read or parse fails contributes nothing: inserting a
failing file anywhere in the path list leaves the result of
`parseEnvFiles` unchanged (the `catch` branch only logs and continues), and
the merged map is exactly the layered merge of the files that parsed
successfully. -/
theorem parseEnvFiles_skips_failing_file (readParse : FsPath → Option EnvMap)
    (expander : Expander) (pre post : List FsPath) (bad : FsPath)
    (expansionBase procEnv : EnvMap) (hbad : readParse bad = none) :
    parseEnvFiles readParse expander (pre ++ bad :: post) expansionBase
        procEnv =
      parseEnvFiles readParse expander (pre ++ post) expansionBase procEnv ∧
    parseEnvFilesMerged readParse (pre ++ bad :: post) =
      mergeEnvLayers ((pre ++ post).filterMap readParse) := by
  have hm : parseEnvFilesMerged readParse (pre ++ bad :: post) =
      parseEnvFilesMerged readParse (pre ++ post) := by
    unfold parseEnvFilesMerged
    rw [List.foldl_append, List.foldl_append, List.foldl_cons]
    simp only [hbad]
  constructor
  · unfold parseEnvFiles
    rw [hm]
  · rw [hm, parseEnvFilesMerged_eq_mergeEnvLayers]

/-- Witness for C8: a concrete failing file between two good ones changes
nothing. -/
theorem parseEnvFiles_skips_failing_file_witness :
    parseEnvFiles
        (fun p => if p = ["bad.env"] then none else some [("A", "1")])
        (fun p e => (some (some p), e))
        ([["g1.env"]] ++ ["bad.env"] :: [["g2.env"]]) [] [] =
      parseEnvFiles
        (fun p => if p = ["bad.env"] then none else some [("A", "1")])
        (fun p e => (some (some p), e))
        ([["g1.env"]] ++ [["g2.env"]]) [] [] :=
  (parseEnvFiles_skips_failing_file
    (fun p => if p = ["bad.env"] then none else some [("A", "1")])
    (fun p e => (some (some p), e)) [["g1.env"]] [["g2.env"]] ["bad.env"]
    [] [] (by decide)).1

/-- Accumulator-general lookup characterization of the allow-list fold. -/
theorem filterFold_lookup (env : EnvMap) (l : List String) :
    ∀ (acc : EnvMap) (k : String),
      envLookup
          (l.foldl
            (fun out k' =>
              match envLookup env k' with
              | some v => envSet out k' v
              | none => out)
            acc) k =
        if k ∈ l ∧ (envLookup env k).isSome then envLookup env k
        else envLookup acc k := by
  induction l with
  | nil =>
    intro acc k
    simp
  | cons a rest ih =>
    intro acc k
    rw [List.foldl_cons, ih]
    by_cases hmem : k ∈ rest ∧ (envLookup env k).isSome
    · rw [if_pos hmem, if_pos ⟨List.mem_cons.mpr (Or.inr hmem.1), hmem.2⟩]
    · rw [if_neg hmem]
      by_cases hka : k = a
      · subst hka
        rcases hv : envLookup env k with _ | v
        · simp
        · simp [envLookup_set_self]
      · have hcond : ¬ (k ∈ a :: rest ∧ (envLookup env k).isSome) := by
          intro hc
          rcases List.mem_cons.mp hc.1 with h' | h'
          · exact hka h'
          · exact hmem ⟨h', hc.2⟩
        rw [if_neg hcond]
        rcases hv : envLookup env a with _ | v
        · rfl
        · exact envLookup_set_other acc a k v hka

/-- C7: with an absent or empty allow-list the filter returns the input map
itself; with a non-empty allow-list `l` the result binds exactly the keys
of `l` that are present in the input, to their input values — keys of `l`
absent from the input are absent from the result. -/
theorem filterEnvByAllowed_spec (env : EnvMap) (allowed : Option (List String))
    (k : String) :
    ((allowed = none ∨ allowed = some []) →
      filterEnvByAllowed env allowed = env) ∧
    (∀ l, allowed = some l → ¬ l.length = 0 →
      envLookup (filterEnvByAllowed env allowed) k =
        if k ∈ l then envLookup env k else none) := by
  constructor
  · intro h
    rcases h with h | h <;> subst h <;> simp [filterEnvByAllowed]
  · intro l hl hne
    subst hl
    simp only [filterEnvByAllowed]
    rw [if_neg hne, filterFold_lookup]
    by_cases hmem : k ∈ l
    · rcases hv : envLookup env k with _ | v
      · simp [hmem, hv, envLookup_nil]
      · simp [hmem, hv]
    · simp [hmem, envLookup_nil]

/-- Witness for C7: the allow-list `["A"]` against `{A:"1", B:"2"}` keeps
`A` with its value and drops `B`; the absent allow-list passes the map
through unchanged. -/
theorem filterEnvByAllowed_spec_witness :
    filterEnvByAllowed [("A", "1"), ("B", "2")] none =
      [("A", "1"), ("B", "2")] ∧
    envLookup (filterEnvByAllowed [("A", "1"), ("B", "2")] (some ["A"])) "A" =
      some "1" ∧
    envLookup (filterEnvByAllowed [("A", "1"), ("B", "2")] (some ["A"])) "B" =
      none := by
  refine ⟨?_, ?_, ?_⟩
  · exact (filterEnvByAllowed_spec [("A", "1"), ("B", "2")] none "A").1
      (Or.inl rfl)
  · rw [(filterEnvByAllowed_spec [("A", "1"), ("B", "2")] (some ["A"]) "A").2
      ["A"] rfl (by decide)]
    decide
  · rw [(filterEnvByAllowed_spec [("A", "1"), ("B", "2")] (some ["A"]) "B").2
      ["A"] rfl (by decide)]
    decide

/-- Frame lemma: if the expander always returns normally and never changes
the ambient value of a key outside its parsed map, then `expandVariables`
returns normally and preserves every ambient lookup (touched keys are
restored, untouched keys were never written). -/
theorem expandVariables_frame (expander : Expander)
    (map baseEnv procEnv : EnvMap)
    (hexp : ∀ p e, (expander p e).1.isSome ∧
      ∀ k, k ∉ p.map Prod.fst →
        envLookup (expander p e).2 k = envLookup e k) :
    ∃ x env', expandVariables expander map baseEnv procEnv = .ok x env' ∧
      ∀ k, envLookup env' k = envLookup procEnv k := by
  by_cases hemp : map.length = 0
  · refine ⟨[], procEnv, ?_, fun k => rfl⟩
    unfold expandVariables
    rw [if_pos hemp]
  · rcases hc : expander map (applyBaseEnv baseEnv ([], []) procEnv).2
      with ⟨or, envAfter⟩
    have hsome := (hexp map (applyBaseEnv baseEnv ([], []) procEnv).2).1
    rw [hc] at hsome
    rcases or with _ | r
    · simp at hsome
    · have hB := applyBaseEnv_spec procEnv baseEnv [] [] procEnv
        (EnvInv_init procEnv)
      have hK := rememberKeys_spec procEnv (map.map Prod.fst)
        (applyBaseEnv baseEnv ([], []) procEnv).1.1
        (applyBaseEnv baseEnv ([], []) procEnv).1.2
        (applyBaseEnv baseEnv ([], []) procEnv).2 hB.1
      obtain ⟨hkeys, hnd, hrec, hframe⟩ := hK.1
      have hR := restoreAll_spec procEnv
        (rememberKeys (map.map Prod.fst)
          (applyBaseEnv baseEnv ([], []) procEnv).1
          (applyBaseEnv baseEnv ([], []) procEnv).2).1
        (rememberKeys (map.map Prod.fst)
          (applyBaseEnv baseEnv ([], []) procEnv).1
          (applyBaseEnv baseEnv ([], []) procEnv).2).2
        envAfter hnd hrec
      refine ⟨r.getD [],
        restoreAll
          (rememberKeys (map.map Prod.fst)
            (applyBaseEnv baseEnv ([], []) procEnv).1
            (applyBaseEnv baseEnv ([], []) procEnv).2).1
          (rememberKeys (map.map Prod.fst)
            (applyBaseEnv baseEnv ([], []) procEnv).1
            (applyBaseEnv baseEnv ([], []) procEnv).2).2
          envAfter, ?_, ?_⟩
      · unfold expandVariables
        rw [if_neg hemp]
        simp only [hc]
      · intro k
        by_cases hkt : k ∈ (rememberKeys (map.map Prod.fst)
            (applyBaseEnv baseEnv ([], []) procEnv).1
            (applyBaseEnv baseEnv ([], []) procEnv).2).1
        · exact hR.1 k hkt
        · rw [hR.2 k hkt]
          have hkm : k ∉ map.map Prod.fst :=
            fun hc' => hkt (hK.2.2 k hc')
          have hstep := (hexp map (applyBaseEnv baseEnv ([], []) procEnv).2).2
            k hkm
          rw [hc] at hstep
          rw [hstep]
          exact hframe k hkt

/-- Predicate that is `true` exactly on strings beginning with `/` (model of Node
`path.isAbsolute` on POSIX, used by `path.resolve`). -/
def isAbsolutePath (p : String) : Bool :=
  match p.data with
  | [] => false
  | c :: _ => c = '/'

/-- Model of Node `path.resolve(base, p)` for the strings handled by
`resolveEnvironments` (POSIX): an absolute `p` wins, otherwise `p` is
joined under `base` (dot-segment normalization is irrelevant here). -/
def pathResolveStr (base p : String) : String :=
  if isAbsolutePath p then p else base ++ "/" ++ p

/-- Source `resolveEnvironments` (src/extension.ts:246-263): for each `pathResolves`
entry, resolve the variable against the folder (JavaScript `value ||
folder.uri.fsPath` and `resolved[key] || value` treat the empty string like
`undefined`), record it in the copied result map, and write it into the
ambient environment (`process.env[key] = resolved[key]`, line 259) without
any later restore. -/
def resolveEnvironments (folderPath : String)
    (pathResolves : List (String × String)) (vars : EnvMap)
    (procEnv : EnvMap) : EnvMap × EnvMap :=
  pathResolves.foldl
    (fun st kv =>
      let base := if kv.2 = "" then folderPath else kv.2
      let arg :=
        match envLookup st.1 kv.1 with
        | some s => if s = "" then kv.2 else s
        | none => kv.2
      let r := pathResolveStr base arg
      (envSet st.1 kv.1 r, envSet st.2 kv.1 r))
    (vars, procEnv)

/-- JavaScript object spread `{ ...a, ...b }`. -/
def objectSpread (a b : EnvMap) : EnvMap :=
  (a ++ b).foldl (fun m kv => envSet m kv.1 kv.2) []

/-- Result of `getConfiguredEnvironment` — the returned object literal of
src/extension.ts:288-295 without the `config`/`allowed` passthroughs — plus
the ambient environment after the call; `exn` when one of the
`expandVariables` calls threw. -/
inductive GceOutcome where
  | ok (presets envFromFiles combined filtered procEnv : EnvMap)
  | exn (procEnv : EnvMap)
deriving DecidableEq

/-- The ambient environment a `getConfiguredEnvironment` call left behind. -/
def gceProcEnv : GceOutcome → EnvMap
  | .ok _ _ _ _ e => e
  | .exn e => e

/-- Tail of `getConfiguredEnvironment` (src/extension.ts:279-295) once
`envFromFiles` and the ambient environment `env2` after the file step are
known: combine `{...resolvedPresets, ...envFromFiles}`, resolve again,
filter, and expand the filtered map (with the default empty base). -/
def gceCombine (expander : Expander) (folderStr : String)
    (pathResolves : List (String × String))
    (presets resolvedPresets envFromFiles : EnvMap)
    (allowed : Option (List String)) (env2 : EnvMap) : GceOutcome :=
  let r3 := resolveEnvironments folderStr pathResolves
    (objectSpread resolvedPresets envFromFiles) env2
  match expandVariables expander (filterEnvByAllowed r3.1 allowed) [] r3.2 with
  | .exn e => .exn e
  | .ok f e => .ok presets envFromFiles r3.1 f e

/-- Source `getConfiguredEnvironment` (src/extension.ts:265-296): resolve the
presets (mutating the ambient environment for every `pathResolves` key),
read and merge the environment files (`readEnvFiles`, src/extension.ts:
133-145, with `presets` as expansion base; `?? {}` when none were found),
combine, re-resolve, filter by the allow-list and expand the result. -/
def getConfiguredEnvironment (fsExists : FsPath → Bool)
    (readParse : FsPath → Option EnvMap) (expander : Expander)
    (folder : FsPath) (presets : EnvMap)
    (pathResolves : List (String × String)) (envFileName : String)
    (allowed : Option (List String)) (procEnv : EnvMap) : GceOutcome :=
  let r1 := resolveEnvironments (renderPath folder) pathResolves presets procEnv
  let files := findEnvFilesUpwards fsExists folder envFileName
  if files.length = 0 then
    gceCombine expander (renderPath folder) pathResolves presets r1.1 []
      allowed r1.2
  else
    match parseEnvFiles readParse expander files presets r1.2 with
    | .exn e => .exn e
    | .ok m e =>
      gceCombine expander (renderPath folder) pathResolves presets r1.1 m
        allowed e

/-- With an empty `pathResolves` configuration, the combine-filter-expand
tail preserves every ambient lookup (given a well-behaved expansion). -/
theorem gceCombine_frame (expander : Expander) (folderStr : String)
    (presets resolvedPresets envFromFiles : EnvMap)
    (allowed : Option (List String)) (env2 : EnvMap)
    (hexp : ∀ p e, (expander p e).1.isSome ∧
      ∀ k, k ∉ p.map Prod.fst →
        envLookup (expander p e).2 k = envLookup e k) :
    ∃ f env', gceCombine expander folderStr [] presets resolvedPresets
        envFromFiles allowed env2 =
      .ok presets envFromFiles (objectSpread resolvedPresets envFromFiles) f
        env' ∧
      ∀ k, envLookup env' k = envLookup env2 k := by
  obtain ⟨x, env', heq, hpres⟩ := expandVariables_frame expander
    (filterEnvByAllowed (objectSpread resolvedPresets envFromFiles) allowed)
    [] env2 hexp
  refine ⟨x, env', ?_, hpres⟩
  unfold gceCombine
  simp only [resolveEnvironments, List.foldl_nil]
  rw [heq]

/-- C9 amended: with an empty `pathResolves` configuration (and an
expansion that returns normally and only touches its parsed keys),
`getConfiguredEnvironment` is a pure function of its inputs: it returns
normally and leaves every ambient environment lookup exactly as it found
it.  (With a non-empty `pathResolves`, the preset writes at
src/extension.ts:259 persist — see the counterexample.) -/
theorem getConfiguredEnvironment_pure_no_pathResolves
    (fsExists : FsPath → Bool) (readParse : FsPath → Option EnvMap)
    (expander : Expander) (folder : FsPath) (presets : EnvMap)
    (envFileName : String) (allowed : Option (List String)) (procEnv : EnvMap)
    (hexp : ∀ p e, (expander p e).1.isSome ∧
      ∀ k, k ∉ p.map Prod.fst →
        envLookup (expander p e).2 k = envLookup e k) :
    ∃ envFromFiles combined f env',
      getConfiguredEnvironment fsExists readParse expander folder presets []
          envFileName allowed procEnv =
        .ok presets envFromFiles combined f env' ∧
      ∀ k, envLookup env' k = envLookup procEnv k := by
  unfold getConfiguredEnvironment
  simp only [resolveEnvironments, List.foldl_nil]
  by_cases hf : (findEnvFilesUpwards fsExists folder envFileName).length = 0
  · rw [if_pos hf]
    obtain ⟨f, env', heq, hpres⟩ := gceCombine_frame expander
      (renderPath folder) presets presets [] allowed procEnv hexp
    exact ⟨[], objectSpread presets [], f, env', heq, hpres⟩
  · rw [if_neg hf]
    obtain ⟨m, e, heq1, hpres1⟩ := expandVariables_frame expander
      (parseEnvFilesMerged readParse
        (findEnvFilesUpwards fsExists folder envFileName)) presets procEnv
      hexp
    obtain ⟨f, env', heq2, hpres2⟩ := gceCombine_frame expander
      (renderPath folder) presets presets m allowed e hexp
    refine ⟨m, objectSpread presets m, f, env', ?_,
      fun k => (hpres2 k).trans (hpres1 k)⟩
    unfold parseEnvFiles
    rw [heq1]
    exact heq2

/-- Witness for the amended C9: concrete instantiation (no files on disk,
identity expansion, one preset, empty `pathResolves`); the call returns
normally and the ambient lookups are unchanged. -/
theorem getConfiguredEnvironment_pure_no_pathResolves_witness :
    ∃ envFromFiles combined f env',
      getConfiguredEnvironment (fun _ => false) (fun _ => none)
          (fun p e => (some (some p), e)) [] [("P", "1")] [] ".env" none
          [("HOME", "/h")] =
        .ok [("P", "1")] envFromFiles combined f env' ∧
      ∀ k, envLookup env' k = envLookup [("HOME", "/h")] k :=
  getConfiguredEnvironment_pure_no_pathResolves (fun _ => false)
    (fun _ => none) (fun p e => (some (some p), e)) [] [("P", "1")] ".env"
    none [("HOME", "/h")] (fun _ _ => ⟨rfl, fun _ _ => rfl⟩)

/-- C9 counterexample: with the non-empty `pathResolves` configuration
`{K: "/b"}` (and no environment files, identity expansion, no allow-list),
`getConfiguredEnvironment` leaves the ambient environment changed after it
returns: `K` reads as `"/b"` afterwards although it was absent before —
`resolveEnvironments` writes `process.env[key]` and nothing restores it. -/
theorem getConfiguredEnvironment_pathResolves_mutates :
    envLookup (gceProcEnv (getConfiguredEnvironment (fun _ => false)
        (fun _ => none) (fun p e => (some (some p), e)) [] []
        [("K", "/b")] ".env" none [])) "K" = some "/b" ∧
    envLookup ([] : EnvMap) "K" = none := by
  constructor
  · have hfind : findEnvFilesUpwards (fun _ => false) [] ".env" = [] := by
      rw [findEnvFilesUpwards, findEnvFilesLoop_nil]
      rfl
    simp only [getConfiguredEnvironment, hfind]
    decide
  · rfl
